import Mathlib

/-!
Verification of the retention-decision core of scripts/lightweight_curator.py.

The script ranks Elasticsearch indices by creation date (newest first,
Python sorted with reverse set, a stable sort) and greedily keeps indices
while a running byte counter stays strictly under a budget derived from
cluster disk capacity; everything else is appended to a deletion plan.
Backend round trips (the Elasticsearch client) are modelled by passing the
data they would return (per-node disk totals, per-index store-size mappings
and creation dates, per-call delete outcomes) as explicit arguments.
-/

/-- The inline record class index_struct of get_actionable_indices:
name, size (bytes, non-negative) and creation_date (epoch millis). -/
structure index_struct where
  name : String
  size : Nat
  creation_date : Nat
deriving DecidableEq

/-- The ordering used by sorted(indices, key=lambda x: x.creation_date, reverse=True):
a stable sort placing larger creation dates first.  Python's stable sort with the
reverse flag keeps elements with equal keys in input order, exactly as
List.insertionSort with this relation does. -/
def by_creation_desc (a b : index_struct) : Prop :=
  b.creation_date ≤ a.creation_date

instance : DecidableRel by_creation_desc :=
  fun a b => Nat.decLe b.creation_date a.creation_date

instance : IsTotal index_struct by_creation_desc :=
  ⟨fun a b => Nat.le_total b.creation_date a.creation_date⟩

instance : IsTrans index_struct by_creation_desc :=
  ⟨fun _ _ _ hab hbc => Nat.le_trans hbc hab⟩

/-- indices_smaller_then_max_allowed_size from the source: one step of the
selection loop.  Given the current index, the limit, the running size counter
and the deletion list so far, it keeps the index (adding its size to the
counter) when counter < limit and index.size + counter < limit, and otherwise
appends the index name to the deletion list, returning the updated pair. -/
def indices_smaller_then_max_allowed_size (index : index_struct) (limit : Nat)
    (indices_size_counter : Nat) (indices_to_delete : List String) :
    List String × Nat :=
  let expected_size := index.size + indices_size_counter
  if indices_size_counter < limit ∧ expected_size < limit then
    (indices_to_delete, indices_size_counter + index.size)
  else
    (indices_to_delete ++ [index.name], indices_size_counter)

/-- The selection phase of get_actionable_indices from the source: fold
indices_smaller_then_max_allowed_size over the indices sorted by creation date
descending, starting from an empty deletion list and a zero counter, and
return the deletion list.  The candidate-collection phase that builds the
index list from backend responses is modelled separately (collect_indices). -/
def get_actionable_indices (indices : List index_struct) (max_allowed_size : Nat) :
    List String :=
  (List.foldl
    (fun acc index =>
      indices_smaller_then_max_allowed_size index max_allowed_size acc.2 acc.1)
    (([] : List String), 0)
    (List.insertionSort by_creation_desc indices)).1

/-- Written from the specification's wording of the selector (section 4.4 and
claim C1): walk the records in order with an accumulator usedBytes, keep a
record exactly when usedBytes < budget and usedBytes + size < budget, and
return the names of the records marked for deletion in encounter order. -/
def select_spec (budget : Nat) : Nat → List index_struct → List String
  | _, [] => []
  | usedBytes, record :: rest =>
    if usedBytes < budget ∧ usedBytes + record.size < budget then
      select_spec budget (usedBytes + record.size) rest
    else
      record.name :: select_spec budget usedBytes rest

/-- The records the selector keeps (the complement of the deletion list),
mirroring the branch of the loop that adds to the size counter. -/
def kept_records (budget : Nat) : Nat → List index_struct → List index_struct
  | _, [] => []
  | usedBytes, record :: rest =>
    if usedBytes < budget ∧ usedBytes + record.size < budget then
      record :: kept_records budget (usedBytes + record.size) rest
    else
      kept_records budget usedBytes rest

/-- Total size in bytes of a list of index records. -/
def size_sum : List index_struct → Nat
  | [] => 0
  | record :: rest => record.size + size_sum rest

theorem foldl_selection_eq (budget : Nat) :
    ∀ (l : List index_struct) (acc : List String) (used : Nat),
      List.foldl
        (fun p index =>
          indices_smaller_then_max_allowed_size index budget p.2 p.1)
        (acc, used) l
        = (acc ++ select_spec budget used l,
           used + size_sum (kept_records budget used l)) := by
  intro l
  induction l with
  | nil => intro acc used; simp [select_spec, kept_records, size_sum]
  | cons record rest ih =>
      intro acc used
      by_cases h : used < budget ∧ used + record.size < budget
      · have hstep :
            indices_smaller_then_max_allowed_size record budget used acc
              = (acc, used + record.size) := by
          unfold indices_smaller_then_max_allowed_size
          simp only []
          rw [if_pos]
          exact ⟨h.1, by omega⟩
        simp only [List.foldl_cons, hstep, ih]
        rw [select_spec, kept_records, if_pos h, if_pos h]
        simp [size_sum]
        omega
      · have hstep :
            indices_smaller_then_max_allowed_size record budget used acc
              = (acc ++ [record.name], used) := by
          unfold indices_smaller_then_max_allowed_size
          simp only []
          rw [if_neg]
          intro hc
          exact h ⟨hc.1, by omega⟩
        simp only [List.foldl_cons, hstep, ih]
        rw [select_spec, kept_records, if_neg h, if_neg h]
        simp

theorem get_actionable_indices_eq (indices : List index_struct) (budget : Nat) :
    get_actionable_indices indices budget
      = select_spec budget 0 (List.insertionSort by_creation_desc indices) := by
  unfold get_actionable_indices
  rw [foldl_selection_eq]
  simp

/-- C1: the selector visits the records sorted by creation timestamp
descending (a permutation of the input), starts a usedBytes accumulator at 0,
keeps a record (adding its size) exactly when usedBytes < budget and
usedBytes + size < budget, otherwise marks it for deletion without changing
usedBytes, and returns the deleted names in that descending-timestamp
encounter order: the source's fold agrees with the specification's recursion
on the sorted sequence. -/
theorem C1_selector_matches_spec (indices : List index_struct) (budget : Nat) :
    List.Sorted by_creation_desc (List.insertionSort by_creation_desc indices)
    ∧ List.Perm (List.insertionSort by_creation_desc indices) indices
    ∧ get_actionable_indices indices budget
        = select_spec budget 0 (List.insertionSort by_creation_desc indices) :=
  ⟨List.sorted_insertionSort by_creation_desc indices,
   List.perm_insertionSort by_creation_desc indices,
   get_actionable_indices_eq indices budget⟩

theorem kept_records_fits (budget : Nat) :
    ∀ (l : List index_struct) (used : Nat), used < budget →
      used + size_sum (kept_records budget used l) < budget := by
  intro l
  induction l with
  | nil => intro used h; simpa [kept_records, size_sum] using h
  | cons record rest ih =>
      intro used h
      by_cases hc : used < budget ∧ used + record.size < budget
      · rw [kept_records, if_pos hc]
        have := ih (used + record.size) hc.2
        simp only [size_sum]
        omega
      · rw [kept_records, if_neg hc]
        exact ih used h

theorem select_kept_partition (budget : Nat) :
    ∀ (l : List index_struct) (used : Nat),
      List.Perm
        (select_spec budget used l
          ++ (kept_records budget used l).map index_struct.name)
        (l.map index_struct.name) := by
  intro l
  induction l with
  | nil => intro used; simp [select_spec, kept_records]
  | cons record rest ih =>
      intro used
      by_cases hc : used < budget ∧ used + record.size < budget
      · rw [select_spec, kept_records, if_pos hc, if_pos hc]
        simp only [List.map_cons]
        exact (List.perm_middle).trans ((ih (used + record.size)).cons record.name)
      · rw [select_spec, kept_records, if_neg hc, if_neg hc]
        simp only [List.cons_append, List.map_cons]
        exact (ih used).cons record.name

/-- C2, counterexample to minimality: with records A(size 9, newest),
B(size 9), C(size 1), D(size 1) and budget 10, the code keeps only A and
deletes the three records B, C, D; yet deleting just the two records A and B
leaves exactly C and D, whose total size 2 fits the budget, so a strictly
smaller deletion set suffices: the greedy selection is not minimal. -/
theorem C2_counterexample :
    (get_actionable_indices
        [⟨"A", 9, 4⟩, ⟨"B", 9, 3⟩, ⟨"C", 1, 2⟩, ⟨"D", 1, 1⟩] 10).length = 3
    ∧ List.filter (fun r => !(r.name == "A" || r.name == "B"))
        ([⟨"A", 9, 4⟩, ⟨"B", 9, 3⟩, ⟨"C", 1, 2⟩, ⟨"D", 1, 1⟩] : List index_struct)
        = [⟨"C", 1, 2⟩, ⟨"D", 1, 1⟩]
    ∧ size_sum [⟨"C", 1, 2⟩, ⟨"D", 1, 1⟩] < 10
    ∧ (["A", "B"] : List String).length
        < (get_actionable_indices
            [⟨"A", 9, 4⟩, ⟨"B", 9, 3⟩, ⟨"C", 1, 2⟩, ⟨"D", 1, 1⟩] 10).length := by
  decide

/-- C2 as amended: for every positive budget the deletion set does bring the
kept indices within budget, with the kept total strictly below the budget, and
kept and deleted records together count the whole input; no minimality of the
deletion set is guaranteed. -/
theorem C2_kept_within_budget (indices : List index_struct) (budget : Nat)
    (h : 0 < budget) :
    size_sum (kept_records budget 0 (List.insertionSort by_creation_desc indices))
        < budget
    ∧ (get_actionable_indices indices budget).length
        + (kept_records budget 0
            (List.insertionSort by_creation_desc indices)).length
        = indices.length := by
  constructor
  · have := kept_records_fits budget
      (List.insertionSort by_creation_desc indices) 0 h
    omega
  · have hperm := select_kept_partition budget
      (List.insertionSort by_creation_desc indices) 0
    have hlen := hperm.length_eq
    have hsort :=
      (List.perm_insertionSort by_creation_desc indices).length_eq
    rw [get_actionable_indices_eq]
    simp only [List.length_append, List.length_map] at hlen ⊢
    omega

theorem C2_kept_within_budget_witness :
    0 < 10
    ∧ size_sum (kept_records 10 0 (List.insertionSort by_creation_desc
        [⟨"A", 9, 4⟩, ⟨"B", 9, 3⟩])) < 10 :=
  ⟨by decide,
   (C2_kept_within_budget [⟨"A", 9, 4⟩, ⟨"B", 9, 3⟩] 10 (by decide)).1⟩

/-- C3: the selector never marks more indices for deletion than exist in the
input, and the deleted names together with the kept names are a permutation
of the input names: kept and deleted partition the input. -/
theorem C3_kept_deleted_partition (indices : List index_struct) (budget : Nat) :
    (get_actionable_indices indices budget).length ≤ indices.length
    ∧ List.Perm
        (get_actionable_indices indices budget
          ++ (kept_records budget 0
              (List.insertionSort by_creation_desc indices)).map
              index_struct.name)
        (indices.map index_struct.name) := by
  have hperm :
      List.Perm
        (get_actionable_indices indices budget
          ++ (kept_records budget 0
              (List.insertionSort by_creation_desc indices)).map
              index_struct.name)
        (indices.map index_struct.name) := by
    rw [get_actionable_indices_eq]
    exact (select_kept_partition budget
        (List.insertionSort by_creation_desc indices) 0).trans
      ((List.perm_insertionSort by_creation_desc indices).map index_struct.name)
  refine ⟨?_, hperm⟩
  have hlen := hperm.length_eq
  simp only [List.length_append, List.length_map] at hlen
  omega

theorem select_spec_zero_budget :
    ∀ (l : List index_struct) (used : Nat),
      select_spec 0 used l = l.map index_struct.name := by
  intro l
  induction l with
  | nil => intro used; rfl
  | cons record rest ih =>
      intro used
      rw [select_spec, if_neg]
      · rw [ih]; rfl
      · intro hc
        exact Nat.not_lt_zero used hc.1

theorem select_spec_all_zero_sizes (budget : Nat) (h : 0 < budget) :
    ∀ l : List index_struct, (∀ r ∈ l, r.size = 0) →
      select_spec budget 0 l = [] := by
  intro l
  induction l with
  | nil => intro _; rfl
  | cons record rest ih =>
      intro hz
      have hr : record.size = 0 := hz record (List.mem_cons_self record rest)
      rw [select_spec, if_pos]
      · have : (0 : Nat) + record.size = 0 := by omega
        rw [this]
        exact ih fun r hrm => hz r (List.mem_cons_of_mem record hrm)
      · exact ⟨h, by omega⟩

/-- C4: with budget 0 the selector returns every input name, in descending
creation-timestamp order; with a strictly positive budget and all sizes zero
it returns the empty deletion sequence. -/
theorem C4_zero_budget_zero_sizes (indices : List index_struct) (budget : Nat) :
    get_actionable_indices indices 0
        = (List.insertionSort by_creation_desc indices).map index_struct.name
    ∧ (0 < budget → (∀ r ∈ indices, r.size = 0) →
        get_actionable_indices indices budget = []) := by
  constructor
  · rw [get_actionable_indices_eq]
    exact select_spec_zero_budget _ 0
  · intro hb hz
    rw [get_actionable_indices_eq]
    exact select_spec_all_zero_sizes budget hb _
      fun r hr => hz r ((List.mem_insertionSort by_creation_desc).mp hr)

theorem C4_zero_budget_zero_sizes_witness :
    get_actionable_indices [⟨"x", 0, 5⟩] 0 = ["x"]
    ∧ get_actionable_indices [⟨"x", 0, 5⟩] 3 = [] := by
  constructor
  · exact (C4_zero_budget_zero_sizes [⟨"x", 0, 5⟩] 3).1.trans (by decide)
  · exact (C4_zero_budget_zero_sizes [⟨"x", 0, 5⟩] 3).2 (by decide) (by decide)

/-- Exception classes relevant to delete_indices: ValueError is the one class
the source's handler names; the Elasticsearch client signals a deletion of an
absent index with NotFoundError and other client-side failures with
TransportError, neither of which is a ValueError. -/
inductive PyExc
  | valueError
  | notFoundError
  | transportError
deriving DecidableEq

/-- delete_indices from the source: for each name call es.indices.delete
(outcome gives the exception that call raises, if any); a ValueError is
caught and logged and the loop continues; any other exception propagates out
of the function, abandoning the remaining names.  The result collects the
names deleted without error, or the uncaught exception. -/
def delete_indices (outcome : String → Option PyExc) :
    List String → Except PyExc (List String)
  | [] => Except.ok []
  | index :: rest =>
    match outcome index with
    | none =>
      match delete_indices outcome rest with
      | Except.ok deleted => Except.ok (index :: deleted)
      | Except.error e => Except.error e
    | some PyExc.valueError => delete_indices outcome rest
    | some e => Except.error e

/-- C6 evaluated at the failing input: when deleting "app-a" raises
NotFoundError (the index is already absent) the exception is not caught — the
source's handler only catches ValueError, which the client never raises — so
the run aborts and "app-b" is never attempted; a ValueError, by contrast, is
tolerated per item as the specification describes. -/
theorem C6_not_found_aborts :
    delete_indices (fun _ => some PyExc.notFoundError) ["app-a", "app-b"]
        = Except.error PyExc.notFoundError
    ∧ delete_indices
        (fun name => if name == "app-a" then some PyExc.valueError else none)
        ["app-a", "app-b"]
        = Except.ok ["app-b"] := by
  constructor
  · rfl
  · rfl

/-- Observable actions of the tail of main once the plan is computed, and of
the delete loop: printing the plan, exiting with a code, issuing a backend
delete call for a name, or an exception escaping. -/
inductive MainAction
  | printed (plan : List String)
  | exited (code : Nat)
  | deleteCall (index : String)
  | raised (e : PyExc)
deriving DecidableEq

/-- The backend delete calls delete_indices issues: every name is attempted
in order until an uncaught exception escapes. -/
def delete_indices_calls (outcome : String → Option PyExc) :
    List String → List MainAction
  | [] => []
  | index :: rest =>
    MainAction.deleteCall index ::
      match outcome index with
      | none => delete_indices_calls outcome rest
      | some PyExc.valueError => delete_indices_calls outcome rest
      | some e => [MainAction.raised e]

/-- The tail of main after get_actionable_indices returns the plan: under
the dry_run flag the plan is printed and the process exits with status 1
before delete_indices is ever reached; otherwise delete_indices runs. -/
def main_after_plan (dry : Bool) (plan : List String)
    (outcome : String → Option PyExc) : List MainAction :=
  if dry then [MainAction.printed plan, MainAction.exited 1]
  else delete_indices_calls outcome plan

/-- C7: in dry-run mode, for every plan and every backend behaviour, the full
deletion sequence is printed, no delete call is issued, and the run exits
with status 1, which is non-zero. -/
theorem C7_dry_run_prints_and_exits (plan : List String)
    (outcome : String → Option PyExc) :
    main_after_plan true plan outcome
        = [MainAction.printed plan, MainAction.exited 1]
    ∧ (∀ index, MainAction.deleteCall index ∉ main_after_plan true plan outcome)
    ∧ MainAction.exited 1 ∈ main_after_plan true plan outcome
    ∧ (1 : Nat) ≠ 0 := by
  refine ⟨rfl, ?_, ?_, by omega⟩
  · intro index
    simp [main_after_plan]
  · simp [main_after_plan]

/-- Result of the es_connect loop: a connection handle obtained on a given
attempt (counting failed attempts before it), or exiting the process. -/
inductive ConnectResult
  | connected (attempt : Nat)
  | fatalExit
deriving DecidableEq

/-- The while True loop of es_connect.  outcome n is true when the attempt
made after n failures succeeds (the Elasticsearch constructor plus the
cluster health probe); on a ConnectionError the counter increments, and when
it reaches max_attempts the process exits fatally; otherwise the loop sleeps
10 seconds and retries.  The first list collects the sleep durations.  gas
makes the unbounded while loop structurally recursive; C8 shows gas
max_attempts is enough, so the loop terminates. -/
def es_connect_loop (outcome : Nat → Bool) (max_attempts : Nat) :
    Nat → Nat → Option (List Nat × ConnectResult)
  | _, 0 => none
  | counter, gas + 1 =>
    if outcome counter then some ([], ConnectResult.connected counter)
    else if counter + 1 == max_attempts then some ([], ConnectResult.fatalExit)
    else
      match es_connect_loop outcome max_attempts (counter + 1) gas with
      | none => none
      | some (sleeps, res) => some (10 :: sleeps, res)

/-- es_connect from the source: the loop starts with counter 0 and
max_attempts 2. -/
def es_connect (outcome : Nat → Bool) : Option (List Nat × ConnectResult) :=
  es_connect_loop outcome 2 0 2

/-- C8: for every behaviour of the backend the connect loop terminates (fuel
equal to max_attempts suffices), every wait between attempts is exactly 10
units, the loop exits fatally exactly when the first two attempts both fail,
and a successful connection happens within the first two attempts. -/
theorem C8_connect_bounded_retry (outcome : Nat → Bool) :
    ∃ sleeps res,
      es_connect outcome = some (sleeps, res)
      ∧ (∀ s ∈ sleeps, s = 10)
      ∧ (res = ConnectResult.fatalExit
          ↔ (outcome 0 = false ∧ outcome 1 = false))
      ∧ (∀ k, res = ConnectResult.connected k → k < 2) := by
  cases h0 : outcome 0 with
  | true =>
      refine ⟨[], ConnectResult.connected 0, ?_, by simp, ?_, ?_⟩
      · simp [es_connect, es_connect_loop, h0]
      · constructor
        · intro h; cases h
        · intro h; cases h.1
      · intro k hk
        cases hk
        omega
  | false =>
      cases h1 : outcome 1 with
      | true =>
          refine ⟨[10], ConnectResult.connected 1, ?_, by simp, ?_, ?_⟩
          · simp [es_connect, es_connect_loop, h0, h1]
          · constructor
            · intro h; cases h
            · intro h; cases h.2
          · intro k hk
            cases hk
            omega
      | false =>
          refine ⟨[10], ConnectResult.fatalExit, ?_, by simp, ?_, ?_⟩
          · simp [es_connect, es_connect_loop, h0, h1]
          · simp
          · intro k hk
            cases hk

theorem orderedInsert_last (a : index_struct) :
    ∀ l : List index_struct, (∀ b ∈ l, a.creation_date < b.creation_date) →
      List.orderedInsert by_creation_desc a l = l ++ [a] := by
  intro l
  induction l with
  | nil => intro _; rfl
  | cons b rest ih =>
      intro h
      have hb : a.creation_date < b.creation_date :=
        h b (List.mem_cons_self b rest)
      have hrest : ∀ c ∈ rest, a.creation_date < c.creation_date :=
        fun c hc => h c (List.mem_cons_of_mem b hc)
      rw [List.orderedInsert,
          if_neg (by intro hle; exact absurd hb (Nat.not_lt.mpr hle)),
          ih hrest]
      simp

theorem insertionSort_strict_asc :
    ∀ l : List index_struct,
      List.Pairwise
        (fun a b : index_struct => a.creation_date < b.creation_date) l →
      List.insertionSort by_creation_desc l = l.reverse := by
  intro l
  induction l with
  | nil => intro _; rfl
  | cons a rest ih =>
      intro h
      have hp := List.pairwise_cons.mp h
      have hmem : ∀ b ∈ rest.reverse, a.creation_date < b.creation_date :=
        fun b hb => hp.1 b (List.mem_reverse.mp hb)
      rw [List.insertionSort, ih hp.2, orderedInsert_last a rest.reverse hmem,
          List.reverse_cons]

theorem reverse_sorted_desc (l : List index_struct)
    (h : List.Pairwise
        (fun a b : index_struct => a.creation_date < b.creation_date) l) :
    List.Sorted by_creation_desc l.reverse := by
  rw [List.Sorted, List.pairwise_reverse]
  exact h.imp fun hab => Nat.le_of_lt hab

/-- C9, counterexample for colliding timestamps: the records a and b share
creation date 7 and size 1; the input is (weakly) sorted ascending, yet with
budget 2 the selector applied to the reversed input deletes a while the
selector applied to the original input deletes b, because the stable sort
keeps records with equal keys in the order presented, which the reversal
swaps. -/
theorem C9_counterexample :
    List.Pairwise
        (fun a b : index_struct => a.creation_date ≤ b.creation_date)
        [⟨"a", 1, 7⟩, ⟨"b", 1, 7⟩]
    ∧ get_actionable_indices (List.reverse [⟨"a", 1, 7⟩, ⟨"b", 1, 7⟩]) 2
        ≠ get_actionable_indices [⟨"a", 1, 7⟩, ⟨"b", 1, 7⟩] 2 := by
  constructor
  · simp
  · decide

/-- C9 as amended: the selector's sort is stable and orders by creation
timestamp descending, and when the input is sorted strictly ascending (no
colliding timestamps) running the selector on the reversed input yields the
same selection as running it on the original; with colliding timestamps the
two can differ. -/
theorem C9_sorted_input_reversal (indices : List index_struct) (budget : Nat)
    (h : List.Pairwise
        (fun a b : index_struct => a.creation_date < b.creation_date) indices) :
    get_actionable_indices indices.reverse budget
        = get_actionable_indices indices budget := by
  rw [get_actionable_indices_eq, get_actionable_indices_eq,
      (reverse_sorted_desc indices h).insertionSort_eq,
      insertionSort_strict_asc indices h]

theorem C9_sorted_input_reversal_witness :
    List.Pairwise
        (fun a b : index_struct => a.creation_date < b.creation_date)
        [⟨"old", 1, 1⟩, ⟨"new", 1, 2⟩]
    ∧ get_actionable_indices (List.reverse [⟨"old", 1, 1⟩, ⟨"new", 1, 2⟩]) 2
        = get_actionable_indices [⟨"old", 1, 1⟩, ⟨"new", 1, 2⟩] 2 :=
  ⟨by simp, C9_sorted_input_reversal [⟨"old", 1, 1⟩, ⟨"new", 1, 2⟩] 2 (by simp)⟩

/-- get_first_item from the source: next(iter(a_dict.values())).  A Python
dict preserves insertion order and is modelled as an association list; next
on the iterator of an empty dict raises StopIteration, modelled as none.  The
source gives the argument a default of the empty dict, so a call with no
argument raises. -/
def get_first_item (a_dict : List (String × Nat) := []) : Option Nat :=
  match a_dict with
  | [] => none
  | (_, value) :: _ => some value

/-- The candidate-collection loop of get_actionable_indices with the backend
responses pre-resolved: each entry carries a resolved index name, the
per-shard/per-node store-size mapping from the stats call, and the
creation_date setting.  The loop takes int(get_first_item(mapping)) as the
size; an empty mapping makes get_first_item raise, modelled as none, which
aborts the whole collection pass. -/
def collect_indices (entries : List (String × List (String × Nat) × Nat)) :
    Option (List index_struct) :=
  match entries with
  | [] => some []
  | (name, store, creation_date) :: rest =>
    match get_first_item store with
    | none => none
    | some size =>
      match collect_indices rest with
      | none => none
      | some l => some (⟨name, size, creation_date⟩ :: l)

theorem collect_indices_isSome :
    ∀ entries : List (String × List (String × Nat) × Nat),
      (collect_indices entries).isSome
        = entries.all fun e => !(e.2.1.isEmpty) := by
  intro entries
  induction entries with
  | nil => rfl
  | cons e rest ih =>
      obtain ⟨name, store, creation_date⟩ := e
      cases store with
      | nil => simp [collect_indices, get_first_item]
      | cons p ps =>
          obtain ⟨k, v⟩ := p
          cases hr : collect_indices rest with
          | none =>
              simp only [collect_indices, get_first_item, hr, List.all_cons]
              rw [← ih, hr]
              rfl
          | some lr =>
              simp only [collect_indices, get_first_item, hr, List.all_cons]
              rw [← ih, hr]
              rfl

/-- C10: get_first_item on the empty mapping (the default argument) yields no
value (StopIteration) instead of a result, and candidate collection succeeds
exactly when every resolved index's store-size mapping is non-empty. -/
theorem C10_empty_mapping_raises
    (entries : List (String × List (String × Nat) × Nat)) :
    get_first_item [] = none
    ∧ ((∃ l, collect_indices entries = some l)
        ↔ ∀ e ∈ entries, e.2.1 ≠ []) := by
  refine ⟨rfl, ?_⟩
  rw [← Option.isSome_iff_exists, collect_indices_isSome entries,
      List.all_eq_true]
  constructor
  · intro h e he
    have := h e he
    simpa using this
  · intro h e he
    simpa using h e he

theorem C10_empty_mapping_raises_witness :
    ∃ l, collect_indices [("app-x", [("size_in_bytes", 42)], 5)] = some l :=
  (C10_empty_mapping_raises [("app-x", [("size_in_bytes", 42)], 5)]).2.mpr
    (by simp)
